import Mathlib

set_option maxRecDepth 10000

/-!
Shallow embedding of the TAC-to-DAG core of `src/app.py`:
the parser/builder `parse_tac_to_dag`, and the schedulers
`get_heuristic_sequence` / `get_optimal_sequence`.

Strings are processed exactly as the Python code does: the input text is
stripped of surrounding whitespace, split on newline characters, each
line is matched against the regular expression
`^\s*(\w+)\s*=\s*(.+)\s*$`, and the right-hand side is split on
whitespace runs.  The graph mirrors `networkx.DiGraph`: nodes and edges
are kept in insertion order, re-adding a node keeps its position and
updates its label, and duplicate edges are ignored.
`nx.topological_sort` is modelled by Kahn's algorithm exactly as
`networkx.topological_generations` runs it (initial zero-in-degree nodes
in node insertion order, newly freed nodes appended in edge order, an
error when not every node is emitted), and Python's stable `list.sort`
with a key function is modelled by `List.mergeSort`, which is a stable
sort and therefore produces the same list.
-/

namespace DagCD

deriving instance DecidableEq for Except

/-- ASCII whitespace, as recognised by Python's `str.strip` / `str.split`. -/
def pyIsSpace (c : Char) : Bool :=
  c = ' ' || c = '\t' || c = '\n' || c = '\r' || c = Char.ofNat 11 || c = Char.ofNat 12

/-- A `\w` word character of the assignment regex (ASCII alphanumeric or underscore). -/
def isWordChar (c : Char) : Bool := c.isAlphanum || c = '_'

/-- Python `str.strip()`: drop leading and trailing whitespace. -/
def pyStripList (l : List Char) : List Char :=
  ((l.dropWhile pyIsSpace).reverse.dropWhile pyIsSpace).reverse

/-- Python `str.split('\n')`: split on every newline, keeping empty pieces. -/
def splitLines : List Char → List (List Char)
  | [] => [[]]
  | c :: cs =>
    if c = '\n' then [] :: splitLines cs
    else
      match splitLines cs with
      | [] => [[c]]
      | l :: ls => (c :: l) :: ls

/-- Helper for `pySplitWs`: accumulate the current token (reversed) while scanning. -/
def splitWsAux : List Char → List Char → List (List Char)
  | [], acc => if acc.isEmpty then [] else [acc.reverse]
  | c :: cs, acc =>
    if pyIsSpace c then
      if acc.isEmpty then splitWsAux cs [] else acc.reverse :: splitWsAux cs []
    else splitWsAux cs (c :: acc)

/-- Python `str.split()` with no argument: split on whitespace runs, dropping
empty tokens; composed with a preceding `str.strip()` this is exactly
`expr.strip().split()` from the source. -/
def pySplitWs (l : List Char) : List String :=
  (splitWsAux l []).map String.mk

/-- `re.match` of the pre-compiled assignment pattern `^\s*(\w+)\s*=\s*(.+)\s*$`.
`\w` and `\s` are disjoint, so the greedy quantifiers never backtrack past the
`=`: the match succeeds iff the line is optional whitespace, a nonempty word,
optional whitespace, `=`, and a nonempty remainder.  We return the first
capture group and the raw remainder after `=`; the second capture group equals
that remainder up to leading whitespace, which the subsequent
`expr.strip().split()` erases, so tokenisation is unaffected. -/
def pyMatch (line : List Char) : Option (String × List Char) :=
  let l1 := line.dropWhile pyIsSpace
  let word := l1.takeWhile isWordChar
  if word.isEmpty then none
  else
    match (l1.dropWhile isWordChar).dropWhile pyIsSpace with
    | '=' :: rest => if rest.isEmpty then none else some (String.mk word, rest)
    | _ => none

/-- A node of an `nx.DiGraph`: its name and its `label` attribute
(`none` when the node was materialised without attributes). -/
structure PyNode where
  name : String
  label : Option String
deriving DecidableEq

/-- An `nx.DiGraph`: nodes and edges in insertion order, no duplicate edges. -/
structure PyDiGraph where
  nodes : List PyNode
  edges : List (String × String)
deriving DecidableEq

def PyDiGraph.empty : PyDiGraph := ⟨[], []⟩

def PyDiGraph.hasNode (G : PyDiGraph) (n : String) : Bool :=
  G.nodes.any (fun x => x.name = n)

/-- `G.add_node(n, label=l)`: a fresh node is appended; an existing node keeps
its position and gets its `label` attribute overwritten. -/
def PyDiGraph.add_node (G : PyDiGraph) (n l : String) : PyDiGraph :=
  if G.hasNode n then
    { G with nodes := G.nodes.map (fun x => if x.name = n then ⟨x.name, some l⟩ else x) }
  else { G with nodes := G.nodes ++ [⟨n, some l⟩] }

/-- `add_edge` materialises missing endpoints without attributes. -/
def PyDiGraph.addEndpoint (G : PyDiGraph) (n : String) : PyDiGraph :=
  if G.hasNode n then G else { G with nodes := G.nodes ++ [⟨n, none⟩] }

/-- `G.add_edge(u, v)`: ensure both endpoints exist, then record the edge
unless it is already present. -/
def PyDiGraph.add_edge (G : PyDiGraph) (u v : String) : PyDiGraph :=
  if (u, v) ∈ ((G.addEndpoint u).addEndpoint v).edges then (G.addEndpoint u).addEndpoint v
  else { (G.addEndpoint u).addEndpoint v with
         edges := ((G.addEndpoint u).addEndpoint v).edges ++ [(u, v)] }

def PyDiGraph.nodeNames (G : PyDiGraph) : List String := G.nodes.map PyNode.name

/-- `list(G.successors(n))`, in edge insertion order. -/
def PyDiGraph.successors (G : PyDiGraph) (n : String) : List String :=
  (G.edges.filter (fun e => e.1 = n)).map Prod.snd

/-- `G.in_degree(n)`. -/
def PyDiGraph.in_degree (G : PyDiGraph) (n : String) : Nat :=
  (G.edges.filter (fun e => e.2 = n)).length

/-- The `label` attribute of node `n`, as read by `nx.get_node_attributes`. -/
def PyDiGraph.nodeLabel (G : PyDiGraph) (n : String) : Option String :=
  (G.nodes.find? (fun x => x.name = n)).bind PyNode.label

/-- Membership test of a Python `dict` (`k in expr_map`). -/
def dictMem (m : List (String × String)) (k : String) : Bool :=
  m.any (fun p => p.1 = k)

/-- `expr_map.get(k, d)`. -/
def dictGet (m : List (String × String)) (k d : String) : String :=
  match m.find? (fun p => p.1 = k) with
  | some p => p.2
  | none => d

/-- `expr_map[k] = v`: overwrite in place, or append preserving insertion order. -/
def dictSet (m : List (String × String)) (k v : String) : List (String × String) :=
  if dictMem m k then m.map (fun p => if p.1 = k then (k, v) else p) else m ++ [(k, v)]

/-- The loop state of `parse_tac_to_dag`: the graph, the `expr_map` dict, the
operator-node counter, and the raw lines reported through `st.warning`. -/
structure BuildState where
  G : PyDiGraph
  expr_map : List (String × String)
  count : Nat
  warnings : List String
deriving DecidableEq

def BuildState.init : BuildState := ⟨PyDiGraph.empty, [], 0, []⟩

/-- One iteration of the `for line in lines` loop of `parse_tac_to_dag`. -/
def processLine (s : BuildState) (line : List Char) : BuildState :=
  if line.contains '=' then
    match pyMatch line with
    | none => s
    | some (target, rest) =>
      match pySplitWs rest with
      | [_] =>
        { s with G := s.G.add_node target target
                 expr_map := dictSet s.expr_map target target }
      | [op1, oper, op2] =>
        let node_name := oper ++ "_" ++ toString s.count
        let G0 := s.G.add_node node_name oper
        let G1 := if !(dictMem s.expr_map op1) && !(G0.hasNode op1) then
                    G0.add_node op1 op1 else G0
        let G2 := if !(dictMem s.expr_map op2) && !(G1.hasNode op2) then
                    G1.add_node op2 op2 else G1
        let left := dictGet s.expr_map op1 op1
        let right := dictGet s.expr_map op2 op2
        let G3 := (G2.add_edge left node_name).add_edge right node_name
        let G4 := (G3.add_node target target).add_edge node_name target
        { G := G4
          expr_map := dictSet s.expr_map target target
          count := s.count + 1
          warnings := s.warnings }
      | _ => { s with warnings := s.warnings ++ [String.mk line] }
  else s

/-- The whole `for` loop of `parse_tac_to_dag`, from the initial state. -/
def buildLines (lines : List (List Char)) : BuildState :=
  lines.foldl processLine BuildState.init

/-- `parse_tac_to_dag` together with its emitted warnings. -/
def parseState (tac : String) : BuildState :=
  buildLines (splitLines (pyStripList tac.data))

/-- `parse_tac_to_dag(tac_code)`: the returned `nx.DiGraph`. -/
def parse_tac_to_dag (tac : String) : PyDiGraph := (parseState tac).G

/-- Decrement the in-degree of each child of the node just emitted, appending
the ones that reach zero to the pending queue (one inner step of
`networkx.topological_generations`). -/
def relaxChildren : List String → List String → (String → Nat) → List String × (String → Nat)
  | [], q, indeg => (q, indeg)
  | c :: cs, q, indeg =>
    let d := indeg c - 1
    relaxChildren cs (if d = 0 then q ++ [c] else q) (fun x => if x = c then d else indeg x)

/-- Kahn's algorithm as run by `networkx.topological_generations`: emit the
queue head, relax its successors.  Generation-by-generation processing with
appended discoveries is exactly FIFO order, which this recursion implements.
The fuel only bounds the recursion; it is chosen large enough never to run
out (each emission consumes one queue entry, and at most `|nodes| + |edges|`
entries are ever enqueued). -/
def kahnLoop (G : PyDiGraph) : Nat → List String → (String → Nat) → List String
  | 0, _, _ => []
  | _ + 1, [], _ => []
  | fuel + 1, n :: qs, indeg =>
    let p := relaxChildren (G.successors n) qs indeg
    n :: kahnLoop G fuel p.1 p.2

/-- `list(nx.topological_sort(G))`: either the complete emission order, or the
`NetworkXUnfeasible` exception raised when some node is never freed. -/
def topological_sort (G : PyDiGraph) : Except String (List String) :=
  let names := G.nodeNames
  let out := kahnLoop G (names.length + G.edges.length + 1)
      (names.filter (fun n => G.in_degree n = 0)) (fun n => G.in_degree n)
  if out.length = names.length then .ok out
  else .error "Graph contains a cycle or graph changed during iteration"

/-- `successor_counts[n] = len(list(G.successors(n)))`. -/
def successorCount (G : PyDiGraph) (n : String) : Nat := (G.successors n).length

/-- `get_optimal_sequence(G)`. -/
def get_optimal_sequence (G : PyDiGraph) : Except String (List String) :=
  topological_sort G

/-- `get_heuristic_sequence(G)`: the topological order re-sorted with Python's
stable `list.sort(key=...)` by ascending successor count, modelled by the
stable `List.mergeSort`. -/
def get_heuristic_sequence (G : PyDiGraph) : Except String (List String) := do
  let topo ← topological_sort G
  pure (topo.mergeSort (fun a b => successorCount G a ≤ successorCount G b))

/-- Well-formedness enjoyed by every graph the builder produces: node names
are distinct, edges are distinct, and edge endpoints are nodes. -/
def WFGraph (G : PyDiGraph) : Prop :=
  G.nodeNames.Nodup ∧ G.edges.Nodup ∧
    ∀ e ∈ G.edges, G.hasNode e.1 = true ∧ G.hasNode e.2 = true

instance : DecidablePred WFGraph := fun G => by
  unfold WFGraph; infer_instance

/-- The count of edges into `v` whose source has not been emitted yet; the
value `indegree_map[v]` holds during the networkx loop. -/
def residual (G : PyDiGraph) (out : List String) (v : String) : Nat :=
  (G.edges.filter (fun e => e.2 = v && !(out.contains e.1))).length

/-- The invariant of Kahn's algorithm, relating the emitted prefix `out`, the
pending queue and the tracked in-degrees. -/
structure KahnInv (G : PyDiGraph) (out queue : List String) (indeg : String → Nat) : Prop where
  nodup : (out ++ queue).Nodup
  memN : ∀ x ∈ out ++ queue, x ∈ G.nodeNames
  sorted : ∀ u v : String, (u, v) ∈ G.edges → v ∈ out →
    u ∈ out ∧ out.indexOf u < out.indexOf v
  ready : ∀ v ∈ queue, ∀ u : String, (u, v) ∈ G.edges → u ∈ out
  deg : ∀ v : String, v ∉ out → indeg v = residual G out v

/-! ### Well-formedness of builder graphs -/

theorem hasNode_iff {G : PyDiGraph} {n : String} :
    G.hasNode n = true ↔ n ∈ G.nodeNames := by
  simp [PyDiGraph.hasNode, PyDiGraph.nodeNames, List.any_eq_true, List.mem_map]

theorem nodeNames_add_node (G : PyDiGraph) (n l : String) :
    (G.add_node n l).nodeNames =
      if G.hasNode n then G.nodeNames else G.nodeNames ++ [n] := by
  unfold PyDiGraph.add_node PyDiGraph.nodeNames
  split
  · next h =>
    simp only [List.map_map, h, if_true]
    exact List.map_congr_left fun x _ => by
      by_cases hx : x.name = n <;> simp [hx]
  · next h => simp [h]

theorem edges_add_node (G : PyDiGraph) (n l : String) :
    (G.add_node n l).edges = G.edges := by
  unfold PyDiGraph.add_node; split <;> rfl

theorem nodeNames_addEndpoint (G : PyDiGraph) (n : String) :
    (G.addEndpoint n).nodeNames =
      if G.hasNode n then G.nodeNames else G.nodeNames ++ [n] := by
  unfold PyDiGraph.addEndpoint PyDiGraph.nodeNames
  split
  · rfl
  · simp

theorem edges_addEndpoint (G : PyDiGraph) (n : String) :
    (G.addEndpoint n).edges = G.edges := by
  unfold PyDiGraph.addEndpoint; split <;> rfl

theorem edges_add_edge (G : PyDiGraph) (u v : String) :
    (G.add_edge u v).edges =
      if (u, v) ∈ G.edges then G.edges else G.edges ++ [(u, v)] := by
  unfold PyDiGraph.add_edge
  split
  · next h =>
    simp only [edges_addEndpoint] at h
    simp [edges_addEndpoint, h]
  · next h =>
    simp only [edges_addEndpoint] at h
    simp [edges_addEndpoint, h]

theorem mem_edges_add_edge {G : PyDiGraph} {e : String × String} (u v : String)
    (h : e ∈ G.edges) : e ∈ (G.add_edge u v).edges := by
  rw [edges_add_edge]; split <;> simp [h]

theorem self_mem_edges_add_edge (G : PyDiGraph) (u v : String) :
    (u, v) ∈ (G.add_edge u v).edges := by
  rw [edges_add_edge]; split
  · next h => exact h
  · simp

theorem hasNode_add_node {G : PyDiGraph} {m : String} (n l : String)
    (h : G.hasNode m = true) : (G.add_node n l).hasNode m = true := by
  rw [hasNode_iff] at h ⊢
  rw [nodeNames_add_node]; split <;> simp [h]

theorem hasNode_add_node_self (G : PyDiGraph) (n l : String) :
    (G.add_node n l).hasNode n = true := by
  rw [hasNode_iff, nodeNames_add_node]
  split
  · next h => exact hasNode_iff.mp h
  · simp

theorem hasNode_addEndpoint {G : PyDiGraph} {m : String} (n : String)
    (h : G.hasNode m = true) : (G.addEndpoint n).hasNode m = true := by
  rw [hasNode_iff] at h ⊢
  rw [nodeNames_addEndpoint]; split <;> simp [h]

theorem hasNode_addEndpoint_self (G : PyDiGraph) (n : String) :
    (G.addEndpoint n).hasNode n = true := by
  rw [hasNode_iff, nodeNames_addEndpoint]
  split
  · next h => exact hasNode_iff.mp h
  · simp

theorem hasNode_add_edge {G : PyDiGraph} {m : String} (u v : String)
    (h : G.hasNode m = true) : (G.add_edge u v).hasNode m = true := by
  unfold PyDiGraph.add_edge
  have h1 : ((G.addEndpoint u).addEndpoint v).hasNode m = true :=
    hasNode_addEndpoint v (hasNode_addEndpoint u h)
  split <;> simpa [PyDiGraph.hasNode] using h1

theorem hasNode_add_edge_left (G : PyDiGraph) (u v : String) :
    (G.add_edge u v).hasNode u = true := by
  unfold PyDiGraph.add_edge
  have h1 : ((G.addEndpoint u).addEndpoint v).hasNode u = true :=
    hasNode_addEndpoint v (hasNode_addEndpoint_self G u)
  split <;> simpa [PyDiGraph.hasNode] using h1

theorem hasNode_add_edge_right (G : PyDiGraph) (u v : String) :
    (G.add_edge u v).hasNode v = true := by
  unfold PyDiGraph.add_edge
  have h1 : ((G.addEndpoint u).addEndpoint v).hasNode v = true :=
    hasNode_addEndpoint_self _ v
  split <;> simpa [PyDiGraph.hasNode] using h1

theorem WF_add_node {G : PyDiGraph} (h : WFGraph G) (n l : String) :
    WFGraph (G.add_node n l) := by
  obtain ⟨h1, h2, h3⟩ := h
  refine ⟨?_, ?_, ?_⟩
  · rw [nodeNames_add_node]; split
    · exact h1
    · next hn =>
      have : n ∉ G.nodeNames := fun hm => hn (hasNode_iff.mpr hm)
      simp [List.nodup_append, h1, this]
  · rwa [edges_add_node]
  · intro e he
    rw [edges_add_node] at he
    exact ⟨hasNode_add_node n l (h3 e he).1, hasNode_add_node n l (h3 e he).2⟩

theorem WF_addEndpoint {G : PyDiGraph} (h : WFGraph G) (n : String) :
    WFGraph (G.addEndpoint n) := by
  obtain ⟨h1, h2, h3⟩ := h
  refine ⟨?_, ?_, ?_⟩
  · rw [nodeNames_addEndpoint]; split
    · exact h1
    · next hn =>
      have : n ∉ G.nodeNames := fun hm => hn (hasNode_iff.mpr hm)
      simp [List.nodup_append, h1, this]
  · rwa [edges_addEndpoint]
  · intro e he
    rw [edges_addEndpoint] at he
    exact ⟨hasNode_addEndpoint n (h3 e he).1, hasNode_addEndpoint n (h3 e he).2⟩

theorem WF_add_edge {G : PyDiGraph} (h : WFGraph G) (u v : String) :
    WFGraph (G.add_edge u v) := by
  have hWF1 : WFGraph ((G.addEndpoint u).addEndpoint v) :=
    WF_addEndpoint (WF_addEndpoint h u) v
  obtain ⟨h1, h2, h3⟩ := hWF1
  have hedges : ((G.addEndpoint u).addEndpoint v).edges = G.edges := by
    simp [edges_addEndpoint]
  refine ⟨?_, ?_, ?_⟩
  · have : (G.add_edge u v).nodeNames = ((G.addEndpoint u).addEndpoint v).nodeNames := by
      unfold PyDiGraph.add_edge; split <;> rfl
    rw [this]; exact h1
  · rw [edges_add_edge]; split
    · rwa [hedges] at h2
    · next hne =>
      have h2' : G.edges.Nodup := by rwa [hedges] at h2
      simp [List.nodup_append, h2', hne]
  · intro e he
    rw [edges_add_edge] at he
    have hcase : e ∈ G.edges ∨ e = (u, v) := by
      by_cases hin : (u, v) ∈ G.edges
      · simp [hin] at he; exact Or.inl he
      · simp [hin] at he; exact he
    rcases hcase with hmem | rfl
    · have := h3 e (by rwa [hedges])
      constructor
      · unfold PyDiGraph.add_edge; split <;> simpa [PyDiGraph.hasNode] using this.1
      · unfold PyDiGraph.add_edge; split <;> simpa [PyDiGraph.hasNode] using this.2
    · exact ⟨hasNode_add_edge_left G u v, hasNode_add_edge_right G u v⟩

theorem WF_empty : WFGraph PyDiGraph.empty := by
  refine ⟨?_, ?_, ?_⟩ <;> simp [PyDiGraph.empty, PyDiGraph.nodeNames]

theorem WF_processLine {s : BuildState} (h : WFGraph s.G) (line : List Char) :
    WFGraph (processLine s line).G := by
  unfold processLine
  split
  · split
    · exact h
    · split
      · exact WF_add_node h _ _
      · with_reducible
          refine WF_add_edge (WF_add_node (WF_add_edge (WF_add_edge ?_ _ _) _ _) _ _) _ _
        split
        · split
          · exact WF_add_node (WF_add_node (WF_add_node h _ _) _ _) _ _
          · exact WF_add_node (WF_add_node h _ _) _ _
        · split
          · exact WF_add_node (WF_add_node h _ _) _ _
          · exact WF_add_node h _ _
      · exact h
  · exact h

theorem WF_buildFold (lines : List (List Char)) :
    ∀ s : BuildState, WFGraph s.G → WFGraph (lines.foldl processLine s).G := by
  induction lines with
  | nil => intro s h; exact h
  | cons line rest ih =>
    intro s h
    exact ih (processLine s line) (WF_processLine h line)

/-- Every graph the builder returns is well-formed: distinct node names,
distinct edges, and edges between existing nodes. -/
theorem builder_WF (tac : String) : WFGraph (parse_tac_to_dag tac) :=
  WF_buildFold _ BuildState.init WF_empty

/-! ### Soundness of the modelled topological sort -/

theorem mem_successors {G : PyDiGraph} {n c : String} :
    c ∈ G.successors n ↔ (n, c) ∈ G.edges := by
  simp only [PyDiGraph.successors, List.mem_map, List.mem_filter, decide_eq_true_eq]
  constructor
  · rintro ⟨⟨e1, e2⟩, ⟨he, h1⟩, h2⟩
    simp only [] at h1 h2
    subst h1; subst h2; exact he
  · intro h
    exact ⟨(n, c), ⟨h, rfl⟩, rfl⟩

theorem successors_nodup {G : PyDiGraph} (hE : G.edges.Nodup) (n : String) :
    (G.successors n).Nodup := by
  unfold PyDiGraph.successors
  refine List.Nodup.map_on ?_ (hE.filter _)
  intro x hx y hy hxy
  have hx1 : x.1 = n := by simpa using (List.mem_filter.mp hx).2
  have hy1 : y.1 = n := by simpa using (List.mem_filter.mp hy).2
  cases x; cases y
  simp only [] at hx1 hy1 hxy
  simp [hx1, hy1, hxy]

theorem relaxChildren_fst :
    ∀ (children q : List String) (indeg : String → Nat), children.Nodup →
      (relaxChildren children q indeg).1 =
        q ++ children.filter (fun c => indeg c - 1 = 0)
  | [], q, indeg, _ => by simp [relaxChildren]
  | c :: cs, q, indeg, hnd => by
    obtain ⟨hc, hcs⟩ := List.nodup_cons.mp hnd
    rw [relaxChildren]
    rw [relaxChildren_fst cs _ _ hcs]
    have hfil : cs.filter (fun x => (if x = c then indeg c - 1 else indeg x) - 1 = 0)
        = cs.filter (fun x => indeg x - 1 = 0) := by
      apply List.filter_congr
      intro x hx
      have hne : x ≠ c := fun h => hc (h ▸ hx)
      simp [hne]
    rw [hfil]
    by_cases hd : indeg c - 1 = 0
    · simp [hd, List.filter_cons]
    · simp [hd, List.filter_cons]

theorem relaxChildren_snd :
    ∀ (children q : List String) (indeg : String → Nat) (v : String), children.Nodup →
      (relaxChildren children q indeg).2 v =
        if v ∈ children then indeg v - 1 else indeg v
  | [], q, indeg, v, _ => by simp [relaxChildren]
  | c :: cs, q, indeg, v, hnd => by
    obtain ⟨hc, hcs⟩ := List.nodup_cons.mp hnd
    rw [relaxChildren]
    rw [relaxChildren_snd cs _ _ v hcs]
    by_cases hvc : v = c
    · subst hvc
      simp [hc]
    · by_cases hvcs : v ∈ cs
      · simp [hvcs, hvc]
      · have : v ∉ c :: cs := by simp [hvc, hvcs]
        simp [hvcs, hvc, this]

theorem filter_length_le_one_unique {α} {l : List α} {p : α → Bool} {a b : α}
    (hlen : (l.filter p).length ≤ 1) (ha : a ∈ l.filter p) (hb : b ∈ l.filter p) :
    a = b := by
  rcases hfl : l.filter p with _ | ⟨x, xs⟩
  · rw [hfl] at ha; cases ha
  · rw [hfl] at ha hb hlen
    have : xs = [] := by
      cases xs
      · rfl
      · simp at hlen
    subst this
    simp at ha hb
    rw [ha, hb]

theorem contains_eq (l : List String) (a : String) : l.contains a = decide (a ∈ l) := by
  simp [List.contains]

theorem filter_all_eq {α} {l : List α} {a : α} (ha : a ∈ l) (hall : ∀ x ∈ l, x = a)
    (hnd : l.Nodup) : l = [a] := by
  cases l with
  | nil => cases ha
  | cons x xs =>
    have hx : x = a := hall x (List.mem_cons_self _ _)
    subst hx
    cases xs with
    | nil => rfl
    | cons y ys =>
      have hy : y = x := hall y (List.mem_cons_of_mem _ (List.mem_cons_self _ _))
      exfalso
      rw [List.nodup_cons] at hnd
      exact hnd.1 (hy ▸ List.mem_cons_self y ys)

theorem indexOf_append_singleton_self {a : String} {l : List String} (h : a ∉ l) :
    (l ++ [a]).indexOf a = l.length := by
  simp [List.indexOf_append_of_not_mem h]

theorem kahnInv_step {G : PyDiGraph} (hWF : WFGraph G) {out qs : List String}
    {indeg : String → Nat} {n : String}
    (hInv : KahnInv G out (n :: qs) indeg) :
    KahnInv G (out ++ [n])
      (qs ++ (G.successors n).filter (fun c => indeg c - 1 = 0))
      (fun v => if v ∈ G.successors n then indeg v - 1 else indeg v) := by
  obtain ⟨hN, hE, hEnds⟩ := hWF
  have hnodup := hInv.nodup
  rw [List.nodup_append] at hnodup
  obtain ⟨hout, hnqs, hdisj⟩ := hnodup
  obtain ⟨hnq, hqs⟩ := List.nodup_cons.mp hnqs
  have hn_out : n ∉ out := fun h => hdisj h (List.mem_cons_self n qs)
  have hcnd : (G.successors n).Nodup := successors_nodup hE n
  have hfresh : ∀ c ∈ (G.successors n).filter (fun c => indeg c - 1 = 0),
      c ∉ out ∧ c ≠ n ∧ c ∉ qs := by
    intro c hc
    obtain ⟨hcs, _⟩ := List.mem_filter.mp hc
    have hedge : (n, c) ∈ G.edges := mem_successors.mp hcs
    refine ⟨?_, ?_, ?_⟩
    · intro hcout
      exact hn_out (hInv.sorted n c hedge hcout).1
    · rintro rfl
      exact hn_out (hInv.ready c (List.mem_cons_self c qs) c hedge)
    · intro hcqs
      exact hn_out (hInv.ready c (List.mem_cons_of_mem n hcqs) n hedge)
  have huniq : ∀ c ∈ (G.successors n).filter (fun c => indeg c - 1 = 0),
      ∀ u : String, (u, c) ∈ G.edges → u ∈ out ∨ u = n := by
    intro c hc u hedgeu
    obtain ⟨hcs, hcd⟩ := List.mem_filter.mp hc
    have hcd' : indeg c - 1 = 0 := by simpa using hcd
    have hcout : c ∉ out := (hfresh c hc).1
    have hres : indeg c = residual G out c := hInv.deg c hcout
    have hresle : residual G out c ≤ 1 := by omega
    by_cases hu : u ∈ out
    · exact Or.inl hu
    · right
      have hmemu : (u, c) ∈ G.edges.filter (fun e => e.2 = c && !(out.contains e.1)) :=
        List.mem_filter.mpr ⟨hedgeu, by simp [contains_eq, hu]⟩
      have hmemn : (n, c) ∈ G.edges.filter (fun e => e.2 = c && !(out.contains e.1)) :=
        List.mem_filter.mpr ⟨mem_successors.mp hcs, by simp [contains_eq, hn_out]⟩
      have heq := filter_length_le_one_unique (by simpa [residual] using hresle) hmemu hmemn
      exact (Prod.ext_iff.mp heq).1
  refine ⟨?_, ?_, ?_, ?_, ?_⟩
  · have heq : (out ++ [n]) ++ (qs ++ (G.successors n).filter (fun c => indeg c - 1 = 0))
        = (out ++ n :: qs) ++ (G.successors n).filter (fun c => indeg c - 1 = 0) := by
      simp
    rw [heq, List.nodup_append]
    refine ⟨hInv.nodup, hcnd.filter _, ?_⟩
    intro a ha hb
    obtain ⟨h1, h2, h3⟩ := hfresh a hb
    rcases List.mem_append.mp ha with h | h
    · exact h1 h
    · rcases List.mem_cons.mp h with rfl | h
      · exact h2 rfl
      · exact h3 h
  · intro x hx
    rcases List.mem_append.mp hx with h | h
    · rcases List.mem_append.mp h with h | h
      · exact hInv.memN x (List.mem_append_left _ h)
      · obtain rfl := List.mem_singleton.mp h
        exact hInv.memN x (List.mem_append_right _ (List.mem_cons_self _ _))
    · rcases List.mem_append.mp h with h | h
      · exact hInv.memN x (List.mem_append_right _ (List.mem_cons_of_mem _ h))
      · have hxs := (List.mem_filter.mp h).1
        have hedge := mem_successors.mp hxs
        exact hasNode_iff.mp (hEnds (n, x) hedge).2
  · intro u v hedge hv
    rcases List.mem_append.mp hv with hvout | hvn
    · obtain ⟨hu, hlt⟩ := hInv.sorted u v hedge hvout
      refine ⟨List.mem_append_left _ hu, ?_⟩
      rw [List.indexOf_append_of_mem hu, List.indexOf_append_of_mem hvout]
      exact hlt
    · obtain rfl := List.mem_singleton.mp hvn
      have hu : u ∈ out := hInv.ready v (List.mem_cons_self _ _) u hedge
      refine ⟨List.mem_append_left _ hu, ?_⟩
      rw [List.indexOf_append_of_mem hu, indexOf_append_singleton_self hn_out]
      exact List.indexOf_lt_length.mpr hu
  · intro v hv u hedge
    rcases List.mem_append.mp hv with h | h
    · exact List.mem_append_left _ (hInv.ready v (List.mem_cons_of_mem _ h) u hedge)
    · rcases huniq v h u hedge with h' | rfl
      · exact List.mem_append_left _ h'
      · exact List.mem_append_right _ (List.mem_singleton.mpr rfl)
  · intro v hv'
    have hvout : v ∉ out := fun h => hv' (List.mem_append_left _ h)
    have hvn : v ≠ n := fun h => hv' (List.mem_append_right _ (by simp [h]))
    have hdeg := hInv.deg v hvout
    by_cases hvc : v ∈ G.successors n
    · rw [if_pos hvc, hdeg]
      have hedge : (n, v) ∈ G.edges := mem_successors.mp hvc
      have hmemn : (n, v) ∈ G.edges.filter (fun e => e.2 = v && !(out.contains e.1)) :=
        List.mem_filter.mpr ⟨hedge, by simp [contains_eq, hn_out]⟩
      have hstep1 : residual G (out ++ [n]) v =
          ((G.edges.filter (fun e => e.2 = v && !(out.contains e.1))).filter
            (fun e => !(e.1 == n))).length := by
        unfold residual
        rw [List.filter_filter]
        congr 1
        apply List.filter_congr
        intro e _
        by_cases h2 : e.2 = v <;> by_cases hin : e.1 ∈ out <;> by_cases hn1 : e.1 = n <;>
          simp [contains_eq, List.mem_append, h2, hin, hn1]
      have hsingle : (G.edges.filter (fun e => e.2 = v && !(out.contains e.1))).filter
          (fun e => e.1 == n) = [(n, v)] := by
        apply filter_all_eq
        · exact List.mem_filter.mpr ⟨hmemn, by simp⟩
        · intro x hx
          obtain ⟨hxF, hx1⟩ := List.mem_filter.mp hx
          obtain ⟨hxE, hxp⟩ := List.mem_filter.mp hxF
          have hx1' : x.1 = n := by simpa using hx1
          have hx2 : x.2 = v := by
            have := by simpa using hxp
            exact this.1
          cases x
          simp only [] at hx1' hx2
          rw [hx1', hx2]
        · exact (hE.filter _).filter _
      have hpart : (G.edges.filter (fun e => e.2 = v && !(out.contains e.1))).length =
          ((G.edges.filter (fun e => e.2 = v && !(out.contains e.1))).filter
            (fun e => e.1 == n)).length +
          ((G.edges.filter (fun e => e.2 = v && !(out.contains e.1))).filter
            (fun e => !(e.1 == n))).length :=
        List.length_eq_length_filter_add _
      simp only [] at hpart
      rw [hsingle] at hpart
      simp only [List.length_cons, List.length_nil] at hpart
      rw [hstep1]
      unfold residual
      omega
    · rw [if_neg hvc, hdeg]
      unfold residual
      congr 1
      apply List.filter_congr
      intro e he
      by_cases h2 : e.2 = v
      · have hne : e.1 ≠ n := by
          intro h1
          apply hvc
          apply mem_successors.mpr
          have : e = (n, v) := by
            cases e
            simp only [] at h1 h2
            rw [h1, h2]
          rwa [this] at he
        simp [contains_eq, List.mem_append, h2, hne]
      · simp [h2]

theorem kahnInv_init {G : PyDiGraph} (hWF : WFGraph G) :
    KahnInv G [] (G.nodeNames.filter (fun n => G.in_degree n = 0))
      (fun n => G.in_degree n) := by
  refine ⟨?_, ?_, ?_, ?_, ?_⟩
  · simpa using hWF.1.filter _
  · intro x hx
    rw [List.nil_append] at hx
    exact (List.mem_filter.mp hx).1
  · intro u v _ hv
    exact absurd hv (List.not_mem_nil v)
  · intro v hv u hedge
    exfalso
    have hv0 : G.in_degree v = 0 := by simpa using (List.mem_filter.mp hv).2
    unfold PyDiGraph.in_degree at hv0
    have hm : (u, v) ∈ G.edges.filter (fun e => e.2 = v) :=
      List.mem_filter.mpr ⟨hedge, by simp⟩
    rw [List.length_eq_zero] at hv0
    rw [hv0] at hm
    cases hm
  · intro v _
    unfold residual PyDiGraph.in_degree
    congr 1
    apply List.filter_congr
    intro e _
    simp

theorem kahnLoop_inv {G : PyDiGraph} (hWF : WFGraph G) :
    ∀ (fuel : Nat) (queue : List String) (indeg : String → Nat) (out : List String),
      KahnInv G out queue indeg →
      ∃ queue' indeg', KahnInv G (out ++ kahnLoop G fuel queue indeg) queue' indeg'
  | 0, queue, indeg, out, h => ⟨queue, indeg, by simpa [kahnLoop] using h⟩
  | _ + 1, [], indeg, out, h => ⟨[], indeg, by simpa [kahnLoop] using h⟩
  | fuel + 1, n :: qs, indeg, out, h => by
    have hcnd : (G.successors n).Nodup := successors_nodup hWF.2.1 n
    have h1 : (relaxChildren (G.successors n) qs indeg).1
        = qs ++ (G.successors n).filter (fun c => indeg c - 1 = 0) :=
      relaxChildren_fst _ _ _ hcnd
    have h2 : (relaxChildren (G.successors n) qs indeg).2
        = fun v => if v ∈ G.successors n then indeg v - 1 else indeg v :=
      funext fun v => relaxChildren_snd _ _ _ v hcnd
    have hstep : KahnInv G (out ++ [n]) (relaxChildren (G.successors n) qs indeg).1
        (relaxChildren (G.successors n) qs indeg).2 := by
      rw [h1, h2]
      exact kahnInv_step hWF h
    obtain ⟨q', i', hq⟩ := kahnLoop_inv hWF fuel _ _ (out ++ [n]) hstep
    refine ⟨q', i', ?_⟩
    rw [kahnLoop]
    simpa [List.append_assoc] using hq

/-- Whenever the modelled `nx.topological_sort` returns a list, that list is
duplicate-free, exhausts the node set, and puts the source of every edge
strictly before its target. -/
theorem topological_sort_ok_sound {G : PyDiGraph} (hWF : WFGraph G) {l : List String}
    (h : topological_sort G = .ok l) :
    l.Nodup ∧ (∀ x ∈ G.nodeNames, x ∈ l) ∧
      ∀ u v : String, (u, v) ∈ G.edges → u ∈ l ∧ v ∈ l ∧ l.indexOf u < l.indexOf v := by
  unfold topological_sort at h
  simp only [] at h
  split at h
  case isFalse => cases h
  case isTrue hlen =>
    obtain ⟨rfl⟩ : l = kahnLoop G (G.nodeNames.length + G.edges.length + 1)
        (G.nodeNames.filter (fun n => G.in_degree n = 0)) (fun n => G.in_degree n) := by
      cases h
      rfl
    obtain ⟨q', i', hfin⟩ := kahnLoop_inv hWF (G.nodeNames.length + G.edges.length + 1)
      _ _ [] (kahnInv_init hWF)
    rw [List.nil_append] at hfin
    have hlnd := (List.nodup_append.mp hfin.nodup).1
    have hsub : ∀ x ∈ kahnLoop G (G.nodeNames.length + G.edges.length + 1)
        (G.nodeNames.filter (fun n => G.in_degree n = 0)) (fun n => G.in_degree n),
        x ∈ G.nodeNames := fun x hx => hfin.memN x (List.mem_append_left _ hx)
    have hperm := (List.subperm_of_subset hlnd hsub).perm_of_length_le (le_of_eq hlen.symm)
    refine ⟨hlnd, fun x hx => hperm.mem_iff.mpr hx, ?_⟩
    intro u v hedge
    have hvN : v ∈ G.nodeNames := hasNode_iff.mp (hWF.2.2 (u, v) hedge).2
    have hv := hperm.mem_iff.mpr hvN
    obtain ⟨hu, hlt⟩ := hfin.sorted u v hedge hv
    exact ⟨hu, hv, hlt⟩

theorem topological_sort_cases (G : PyDiGraph) :
    (∃ l, topological_sort G = .ok l) ∨
      topological_sort G = .error "Graph contains a cycle or graph changed during iteration" := by
  unfold topological_sort
  simp only []
  split
  · exact Or.inl ⟨_, rfl⟩
  · exact Or.inr rfl

theorem get_heuristic_of_ok {G : PyDiGraph} {topo : List String}
    (h : topological_sort G = .ok topo) :
    get_heuristic_sequence G =
      .ok (topo.mergeSort (fun a b => successorCount G a ≤ successorCount G b)) := by
  simp [get_heuristic_sequence, h]

theorem get_heuristic_of_error {G : PyDiGraph} {e : String}
    (h : topological_sort G = .error e) :
    get_heuristic_sequence G = .error e := by
  simp [get_heuristic_sequence, h]

theorem succLE_trans (G : PyDiGraph) : ∀ a b c : String,
    (decide (successorCount G a ≤ successorCount G b)) = true →
    (decide (successorCount G b ≤ successorCount G c)) = true →
    (decide (successorCount G a ≤ successorCount G c)) = true := by
  intro a b c h1 h2
  simp only [decide_eq_true_eq] at h1 h2 ⊢
  omega

theorem succLE_total (G : PyDiGraph) : ∀ a b : String,
    ((decide (successorCount G a ≤ successorCount G b)) ||
      (decide (successorCount G b ≤ successorCount G a))) = true := by
  intro a b
  rcases Nat.le_total (successorCount G a) (successorCount G b) with h | h <;> simp [h]

/-- The heuristic sequence is the stable re-sort of the topological order by
ascending successor count: a permutation of it, sorted by the count, and
preserving the relative order of any two nodes with equal counts. -/
theorem heuristic_stable_sort {G : PyDiGraph} {topo : List String}
    (h : topological_sort G = .ok topo) :
    ∃ hs : List String, get_heuristic_sequence G = .ok hs ∧
      List.Perm hs topo ∧
      hs.Pairwise (fun a b => successorCount G a ≤ successorCount G b) ∧
      ∀ u v : String, successorCount G u = successorCount G v →
        [u, v].Sublist topo → [u, v].Sublist hs := by
  refine ⟨_, get_heuristic_of_ok h, ?_, ?_, ?_⟩
  · exact List.mergeSort_perm topo _
  · have hp := List.sorted_mergeSort (succLE_trans G) (succLE_total G) topo
    exact hp.imp fun {a b} hab => by simpa using hab
  · intro u v hcount hsub
    exact List.pair_sublist_mergeSort (succLE_trans G) (succLE_total G)
      (by simp [hcount]) hsub

/-- A directed cycle makes the modelled `nx.topological_sort` raise
`NetworkXUnfeasible` instead of returning a sequence. -/
theorem topological_sort_cycle_error {G : PyDiGraph} (hWF : WFGraph G) {u : String}
    (hcyc : Relation.TransGen (fun a b => (a, b) ∈ G.edges) u u) :
    topological_sort G = .error "Graph contains a cycle or graph changed during iteration" := by
  rcases topological_sort_cases G with ⟨l, hok⟩ | herr
  · exfalso
    obtain ⟨-, -, hsort⟩ := topological_sort_ok_sound hWF hok
    have hlt : ∀ a b : String, Relation.TransGen (fun x y => (x, y) ∈ G.edges) a b →
        l.indexOf a < l.indexOf b := by
      intro a b hab
      induction hab with
      | single hstep => exact (hsort _ _ hstep).2.2
      | tail _ hstep ih => exact lt_trans ih (hsort _ _ hstep).2.2
    exact lt_irrefl _ (hlt u u hcyc)
  · exact herr

/-! ### Node labels under the graph operations -/

theorem findLabel_map_update (nodes : List PyNode) (n l : String) :
    ((nodes.map (fun x => if x.name = n then (⟨x.name, some l⟩ : PyNode) else x)).find?
        (fun x => x.name = n)) =
      ((nodes.find? (fun x => x.name = n)).map fun x => (⟨x.name, some l⟩ : PyNode)) := by
  induction nodes with
  | nil => rfl
  | cons x xs ih =>
    by_cases hx : x.name = n
    · simp [hx]
    · simp [hx, ih]

theorem find?_map_update_other (nodes : List PyNode) (n l m : String) (hmn : m ≠ n) :
    ((nodes.map (fun x => if x.name = n then (⟨x.name, some l⟩ : PyNode) else x)).find?
        (fun x => x.name = m))
      = nodes.find? (fun x => x.name = m) := by
  induction nodes with
  | nil => rfl
  | cons x xs ih =>
    simp only [List.map_cons]
    by_cases hx : x.name = n
    · have hxm : ¬ x.name = m := by rw [hx]; exact fun h => hmn h.symm
      rw [if_pos hx]
      rw [List.find?_cons_of_neg _ (by simpa using hxm),
        List.find?_cons_of_neg _ (by simpa using hxm)]
      exact ih
    · rw [if_neg hx]
      by_cases hxm : x.name = m
      · rw [List.find?_cons_of_pos _ (by simpa using hxm),
          List.find?_cons_of_pos _ (by simpa using hxm)]
      · rw [List.find?_cons_of_neg _ (by simpa using hxm),
          List.find?_cons_of_neg _ (by simpa using hxm)]
        exact ih

theorem nodeLabel_add_node_self (G : PyDiGraph) (n l : String) :
    (G.add_node n l).nodeLabel n = some l := by
  unfold PyDiGraph.add_node
  split
  · next h =>
    unfold PyDiGraph.nodeLabel
    simp only []
    rw [findLabel_map_update]
    have hs : (G.nodes.find? (fun x => x.name = n)).isSome := by
      rw [List.find?_isSome]
      obtain ⟨x, hx, hxn⟩ := List.any_eq_true.mp h
      exact ⟨x, hx, hxn⟩
    rcases hf : G.nodes.find? (fun x => x.name = n) with _ | x
    · rw [hf] at hs; cases hs
    · rw [hf]
      rfl
  · next h =>
    unfold PyDiGraph.nodeLabel
    simp only []
    have hnone : G.nodes.find? (fun x => x.name = n) = none := by
      rw [List.find?_eq_none]
      intro x hx hxn
      exact h (List.any_eq_true.mpr ⟨x, hx, hxn⟩)
    simp [hnone]

theorem nodeLabel_add_node_other (G : PyDiGraph) {n m : String} (l : String) (hmn : m ≠ n) :
    (G.add_node n l).nodeLabel m = G.nodeLabel m := by
  unfold PyDiGraph.add_node
  split
  · unfold PyDiGraph.nodeLabel
    simp only []
    rw [find?_map_update_other G.nodes n l m hmn]
  · unfold PyDiGraph.nodeLabel
    simp only []
    have hnm : ¬ (PyNode.mk n (some l)).name = m := fun h => hmn h.symm
    simp [hnm]

theorem nodeLabel_addEndpoint_of_hasNode {G : PyDiGraph} {m : String} (n : String)
    (h : G.hasNode m = true) : (G.addEndpoint n).nodeLabel m = G.nodeLabel m := by
  unfold PyDiGraph.addEndpoint
  split
  · rfl
  · next hn =>
    have hnm : ¬ (PyNode.mk n none).name = m := by
      intro hh
      exact hn (by rwa [← hh] at h)
    show ((G.nodes ++ [PyNode.mk n none]).find? (fun x => x.name = m)).bind PyNode.label
        = (G.nodes.find? (fun x => x.name = m)).bind PyNode.label
    rw [List.find?_append]
    have hsingle : List.find? (fun x => x.name = m) [PyNode.mk n none] = none := by
      simp [hnm]
    rw [hsingle, Option.or_none]

theorem nodeLabel_add_edge_of_hasNode {G : PyDiGraph} {m : String} (u v : String)
    (h : G.hasNode m = true) : (G.add_edge u v).nodeLabel m = G.nodeLabel m := by
  unfold PyDiGraph.add_edge
  have h1 : (G.addEndpoint u).hasNode m = true := hasNode_addEndpoint u h
  have e1 : ((G.addEndpoint u).addEndpoint v).nodeLabel m = G.nodeLabel m := by
    rw [nodeLabel_addEndpoint_of_hasNode v h1, nodeLabel_addEndpoint_of_hasNode u h]
  split
  · exact e1
  · exact e1

/-! ### Behaviour of the parser on individual lines -/

theorem processLine_no_eq {s : BuildState} {line : List Char}
    (h : line.contains '=' = false) : processLine s line = s := by
  unfold processLine
  rw [h]
  simp

theorem processLine_no_match {s : BuildState} {line : List Char}
    (hm : pyMatch line = none) : processLine s line = s := by
  unfold processLine
  split
  · rw [hm]
  · rfl

theorem processLine_bad_tokens {s : BuildState} {line : List Char} {target : String}
    {rest : List Char}
    (hin : line.contains '=' = true)
    (hm : pyMatch line = some (target, rest))
    (h1 : (pySplitWs rest).length ≠ 1) (h3 : (pySplitWs rest).length ≠ 3) :
    processLine s line = { s with warnings := s.warnings ++ [String.mk line] } := by
  unfold processLine
  rw [hin, hm]
  simp only [if_true]
  rcases htok : pySplitWs rest with _ | ⟨t1, _ | ⟨t2, _ | ⟨t3, ts⟩⟩⟩
  · rfl
  · rw [htok] at h1; simp at h1
  · rfl
  · cases ts with
    | nil => rw [htok] at h3; simp at h3
    | cons t4 ts' => rfl

theorem processLine_single_token {s : BuildState} {line : List Char} {target : String}
    {rest : List Char} {tok : String}
    (hin : line.contains '=' = true)
    (hm : pyMatch line = some (target, rest))
    (htok : pySplitWs rest = [tok]) :
    processLine s line =
      { s with G := s.G.add_node target target,
               expr_map := dictSet s.expr_map target target } := by
  unfold processLine
  rw [hin, hm]
  simp only [if_true]
  rw [htok]

theorem mem_edges_add_node {G : PyDiGraph} {e : String × String} (n l : String)
    (h : e ∈ G.edges) : e ∈ (G.add_node n l).edges := by
  rw [edges_add_node]; exact h

theorem hasNode_ne_of_false {G : PyDiGraph} {a b : String}
    (ha : G.hasNode a = true) (hb : G.hasNode b = false) : b ≠ a := by
  intro h
  rw [h, ha] at hb
  cases hb

theorem processLine_binary {s : BuildState} {line : List Char} {target : String}
    {rest : List Char} {op1 oper op2 : String}
    (hin : line.contains '=' = true)
    (hm : pyMatch line = some (target, rest))
    (htok : pySplitWs rest = [op1, oper, op2]) :
    (processLine s line).warnings = s.warnings ∧
    (processLine s line).count = s.count + 1 ∧
    (processLine s line).G.hasNode (oper ++ "_" ++ toString s.count) = true ∧
    (dictGet s.expr_map op1 op1, oper ++ "_" ++ toString s.count)
        ∈ (processLine s line).G.edges ∧
    (dictGet s.expr_map op2 op2, oper ++ "_" ++ toString s.count)
        ∈ (processLine s line).G.edges ∧
    (oper ++ "_" ++ toString s.count, target) ∈ (processLine s line).G.edges ∧
    (target ≠ oper ++ "_" ++ toString s.count →
      (processLine s line).G.nodeLabel (oper ++ "_" ++ toString s.count) = some oper) := by
  unfold processLine
  rw [hin, hm]
  simp only [if_true]
  rw [htok]
  dsimp only
  have hG0 : (s.G.add_node (oper ++ "_" ++ toString s.count) oper).hasNode
      (oper ++ "_" ++ toString s.count) = true := hasNode_add_node_self _ _ _
  have hG2 : ∀ H : PyDiGraph, H.hasNode (oper ++ "_" ++ toString s.count) = true →
      (if !(dictMem s.expr_map op2) && !(H.hasNode op2) then
        H.add_node op2 op2 else H).hasNode (oper ++ "_" ++ toString s.count) = true := by
    intro H hH
    split
    · exact hasNode_add_node _ _ hH
    · exact hH
  have hG1 : (if !(dictMem s.expr_map op1) &&
        !((s.G.add_node (oper ++ "_" ++ toString s.count) oper).hasNode op1) then
        (s.G.add_node (oper ++ "_" ++ toString s.count) oper).add_node op1 op1
      else s.G.add_node (oper ++ "_" ++ toString s.count) oper).hasNode
        (oper ++ "_" ++ toString s.count) = true := by
    split
    · exact hasNode_add_node _ _ hG0
    · exact hG0
  refine ⟨rfl, rfl, ?_, ?_, ?_, ?_, ?_⟩
  · with_reducible
      refine hasNode_add_edge _ _ (hasNode_add_node _ _
        (hasNode_add_edge _ _ (hasNode_add_edge _ _ ?_)))
    exact hG2 _ hG1
  · with_reducible
      refine mem_edges_add_edge _ _ (mem_edges_add_node _ _ (mem_edges_add_edge _ _ ?_))
    exact self_mem_edges_add_edge _ _ _
  · with_reducible
      refine mem_edges_add_edge _ _ (mem_edges_add_node _ _ ?_)
    exact self_mem_edges_add_edge _ _ _
  · with_reducible exact self_mem_edges_add_edge _ _ _
  · intro hne
    have hne' : oper ++ "_" ++ toString s.count ≠ target := fun h => hne h.symm
    with_reducible
      rw [nodeLabel_add_edge_of_hasNode _ _ (hasNode_add_node _ _
          (hasNode_add_edge _ _ (hasNode_add_edge _ _ (hG2 _ hG1)))),
        nodeLabel_add_node_other _ _ hne',
        nodeLabel_add_edge_of_hasNode _ _ (hasNode_add_edge _ _ (hG2 _ hG1)),
        nodeLabel_add_edge_of_hasNode _ _ (hG2 _ hG1)]
    split
    · next hcond1 =>
      have h1 : (s.G.add_node (oper ++ "_" ++ toString s.count) oper).hasNode op1 = false := by
        have h := hcond1
        simp only [Bool.and_eq_true, Bool.not_eq_true'] at h
        exact h.2
      have hopne1 : op1 ≠ oper ++ "_" ++ toString s.count := hasNode_ne_of_false hG0 h1
      split
      · next hcond2 =>
        have h2 : ((s.G.add_node (oper ++ "_" ++ toString s.count) oper).add_node
            op1 op1).hasNode op2 = false := by
          have h := hcond2
          simp only [Bool.and_eq_true, Bool.not_eq_true'] at h
          exact h.2
        have hopne2 : op2 ≠ oper ++ "_" ++ toString s.count :=
          hasNode_ne_of_false (hasNode_add_node _ _ hG0) h2
        rw [nodeLabel_add_node_other _ _ (fun h => hopne2 h.symm),
          nodeLabel_add_node_other _ _ (fun h => hopne1 h.symm)]
        exact nodeLabel_add_node_self _ _ _
      · rw [nodeLabel_add_node_other _ _ (fun h => hopne1 h.symm)]
        exact nodeLabel_add_node_self _ _ _
    · split
      · next hcond2 =>
        have h2 : (s.G.add_node (oper ++ "_" ++ toString s.count) oper).hasNode op2
            = false := by
          have h := hcond2
          simp only [Bool.and_eq_true, Bool.not_eq_true'] at h
          exact h.2
        have hopne2 : op2 ≠ oper ++ "_" ++ toString s.count :=
          hasNode_ne_of_false hG0 h2
        rw [nodeLabel_add_node_other _ _ (fun h => hopne2 h.symm)]
        exact nodeLabel_add_node_self _ _ _
      · exact nodeLabel_add_node_self _ _ _

/-! ### Whitespace-only inputs -/

theorem mem_pyStripList {l : List Char} {c : Char} (h : c ∈ pyStripList l) : c ∈ l := by
  unfold pyStripList at h
  have h1 := List.mem_reverse.mp h
  have h2 := (List.dropWhile_sublist _).subset h1
  have h3 := List.mem_reverse.mp h2
  exact (List.dropWhile_sublist _).subset h3

theorem mem_splitLines : ∀ {cs l : List Char}, l ∈ splitLines cs → ∀ c ∈ l, c ∈ cs := by
  intro cs
  induction cs with
  | nil =>
    intro l hl c hc
    simp [splitLines] at hl
    subst hl
    cases hc
  | cons c0 cs ih =>
    intro l hl c hc
    rw [splitLines] at hl
    by_cases h0 : c0 = '\n'
    · rw [if_pos h0] at hl
      rcases List.mem_cons.mp hl with rfl | hl
      · cases hc
      · exact List.mem_cons_of_mem _ (ih hl c hc)
    · rw [if_neg h0] at hl
      rcases hsp : splitLines cs with _ | ⟨l1, ls⟩
      · rw [hsp] at hl
        rcases List.mem_singleton.mp hl with rfl
        rcases List.mem_singleton.mp hc with rfl
        exact List.mem_cons_self _ _
      · rw [hsp] at hl
        rcases List.mem_cons.mp hl with rfl | hl
        · rcases List.mem_cons.mp hc with rfl | hc
          · exact List.mem_cons_self _ _
          · refine List.mem_cons_of_mem _ (ih ?_ c hc)
            rw [hsp]
            exact List.mem_cons_self _ _
        · exact List.mem_cons_of_mem _ (ih (by rw [hsp]; exact List.mem_cons_of_mem _ hl) c hc)

theorem buildFold_id {lines : List (List Char)}
    (h : ∀ l ∈ lines, l.contains '=' = false) :
    ∀ s : BuildState, lines.foldl processLine s = s := by
  induction lines with
  | nil => intro s; rfl
  | cons l ls ih =>
    intro s
    rw [List.foldl_cons, processLine_no_eq (h l (List.mem_cons_self _ _))]
    exact ih (fun x hx => h x (List.mem_cons_of_mem _ hx)) s

theorem parseState_whitespace {tac : String}
    (h : ∀ c ∈ tac.data, pyIsSpace c = true) :
    parseState tac = BuildState.init := by
  unfold parseState buildLines
  apply buildFold_id
  intro l hl
  by_contra hc
  rw [Bool.not_eq_false] at hc
  have hmem : '=' ∈ l := by simpa [List.contains] using hc
  have h1 : '=' ∈ pyStripList tac.data := mem_splitLines hl '=' hmem
  have h2 : '=' ∈ tac.data := mem_pyStripList h1
  exact absurd (h '=' h2) (by decide)

theorem topological_sort_empty : topological_sort PyDiGraph.empty = .ok [] := rfl

theorem get_heuristic_empty : get_heuristic_sequence PyDiGraph.empty = .ok [] := by
  rw [get_heuristic_of_ok topological_sort_empty]
  simp

/-! ### The claims -/

/-- C1, counterexample: for `a = b + c` followed by `d = b + c` the graph does
NOT contain exactly one `+` operator node — the builder keeps no value-number
table, so the repeated right-hand side gets a second `+` node. -/
theorem c1_counterexample :
    ((parse_tac_to_dag "a = b + c\nd = b + c").nodes.filter
        (fun x => x.label = some "+")).length = 2 ∧
    ¬ ((parse_tac_to_dag "a = b + c\nd = b + c").nodes.filter
        (fun x => x.label = some "+")).length = 1 := by
  decide

/-- C1, amended: every binary instruction unconditionally creates a fresh
operator node `op_count`, even when the (operator, left, right) triple was
seen before; for `a = b + c` followed by `d = b + c` the graph has the two
`+` nodes `+_0` and `+_1`, with `a` fed by `+_0` and `d` fed by `+_1`. -/
theorem c1_theorem :
    (parse_tac_to_dag "a = b + c\nd = b + c").nodes =
      [⟨"+_0", some "+"⟩, ⟨"b", some "b"⟩, ⟨"c", some "c"⟩, ⟨"a", some "a"⟩,
        ⟨"+_1", some "+"⟩, ⟨"d", some "d"⟩] ∧
    (parse_tac_to_dag "a = b + c\nd = b + c").edges =
      [("b", "+_0"), ("c", "+_0"), ("+_0", "a"), ("b", "+_1"), ("c", "+_1"), ("+_1", "d")] :=
  ⟨rfl, rfl⟩

/-- C2, counterexample: the graph built for `a = a + b` contains a directed
cycle through `a`, so the builder's output is not always acyclic. -/
theorem c2_counterexample :
    Relation.TransGen (fun u v => (u, v) ∈ (parse_tac_to_dag "a = a + b").edges) "a" "a" := by
  have h1 : ("a", "+_0") ∈ (parse_tac_to_dag "a = a + b").edges := by decide
  have h2 : ("+_0", "a") ∈ (parse_tac_to_dag "a = a + b").edges := by decide
  exact Relation.TransGen.head h1 (Relation.TransGen.single h2)

/-- C2, amended: the edge from the operator node to the target node can point
at an already-existing node, so acyclicity fails for self-referential inputs:
`a = a + b` yields edges a → +_0, b → +_0 and +_0 → a, closing the directed
cycle a → +_0 → a, which the scheduler then rejects. -/
theorem c2_theorem :
    (parse_tac_to_dag "a = a + b").edges = [("a", "+_0"), ("b", "+_0"), ("+_0", "a")] ∧
    Relation.TransGen (fun u v => (u, v) ∈ (parse_tac_to_dag "a = a + b").edges) "a" "a" ∧
    topological_sort (parse_tac_to_dag "a = a + b") =
      .error "Graph contains a cycle or graph changed during iteration" := by
  have h1 : ("a", "+_0") ∈ (parse_tac_to_dag "a = a + b").edges := by decide
  have h2 : ("+_0", "a") ∈ (parse_tac_to_dag "a = a + b").edges := by decide
  exact ⟨rfl, Relation.TransGen.head h1 (Relation.TransGen.single h2), rfl⟩

/-- C3, counterexample: `computeOptimal` does not filter to result nodes; for
`a = b + c`, `d = a + e`, `f = d + g` it returns the full ten-node topological
order, not `[a, d, f]`. -/
theorem c3_counterexample :
    get_optimal_sequence (parse_tac_to_dag "a = b + c\nd = a + e\nf = d + g") =
      .ok ["b", "c", "e", "g", "+_0", "a", "+_1", "d", "+_2", "f"] ∧
    ¬ get_optimal_sequence (parse_tac_to_dag "a = b + c\nd = a + e\nf = d + g") =
      .ok ["a", "d", "f"] := by
  decide

/-- C3, amended: `computeOptimal` returns the topological order of the FULL
node set (leaf and operator nodes included, nothing filtered); for the input
`a = b + c`, `d = a + e`, `f = d + g` it is
`[b, c, e, g, +_0, a, +_1, d, +_2, f]`, in which the assignment targets
appear in the relative order a, d, f. -/
theorem c3_theorem :
    get_optimal_sequence (parse_tac_to_dag "a = b + c\nd = a + e\nf = d + g") =
      .ok ["b", "c", "e", "g", "+_0", "a", "+_1", "d", "+_2", "f"] ∧
    ["b", "c", "e", "g", "+_0", "a", "+_1", "d", "+_2", "f"].indexOf "a" <
      ["b", "c", "e", "g", "+_0", "a", "+_1", "d", "+_2", "f"].indexOf "d" ∧
    ["b", "c", "e", "g", "+_0", "a", "+_1", "d", "+_2", "f"].indexOf "d" <
      ["b", "c", "e", "g", "+_0", "a", "+_1", "d", "+_2", "f"].indexOf "f" := by
  decide

unseal List.merge List.mergeSort in
/-- C4, counterexample: the heuristic sequence violates topological order: for
`a = b + c` the graph has the edge +_0 → a, yet the heuristic sequence is
`[a, b, c, +_0]`, placing `a` before `+_0`. -/
theorem c4_counterexample :
    ("+_0", "a") ∈ (parse_tac_to_dag "a = b + c").edges ∧
    get_heuristic_sequence (parse_tac_to_dag "a = b + c") = .ok ["a", "b", "c", "+_0"] ∧
    ¬ (["a", "b", "c", "+_0"].indexOf "+_0" < ["a", "b", "c", "+_0"].indexOf "a") := by
  decide

/-- C4, amended: for every graph produced by the builder and every edge
u → v, u precedes v in the sequence returned by `computeOptimal` whenever it
returns one; the heuristic sequence gives no such guarantee, because the
whole-list re-sort by successor count can move a node before its
predecessors. -/
theorem c4_theorem (tac : String) (l : List String) (u v : String)
    (hok : get_optimal_sequence (parse_tac_to_dag tac) = .ok l)
    (he : (u, v) ∈ (parse_tac_to_dag tac).edges) :
    u ∈ l ∧ v ∈ l ∧ l.indexOf u < l.indexOf v :=
  (topological_sort_ok_sound (builder_WF tac) hok).2.2 u v he

/-- C4, witness: the amended theorem applied to `a = b + c` and its edge
+_0 → a. -/
theorem c4_witness :
    (get_optimal_sequence (parse_tac_to_dag "a = b + c") = .ok ["b", "c", "+_0", "a"] ∧
      ("+_0", "a") ∈ (parse_tac_to_dag "a = b + c").edges) ∧
    ("+_0" ∈ ["b", "c", "+_0", "a"] ∧ "a" ∈ ["b", "c", "+_0", "a"] ∧
      ["b", "c", "+_0", "a"].indexOf "+_0" < ["b", "c", "+_0", "a"].indexOf "a") :=
  ⟨⟨by decide, by decide⟩,
    c4_theorem "a = b + c" ["b", "c", "+_0", "a"] "+_0" "a" (by decide) (by decide)⟩

/-- C5, counterexample: `a = b` is not an alias: it creates a node named `a`
(one new node) and no node for `b` at all, and in `a = b` followed by
`e = a + b` the use of `a` resolves to the node `a` while `b` is a separate
node — not the same node. -/
theorem c5_counterexample :
    (parse_tac_to_dag "a = b").nodes = [⟨"a", some "a"⟩] ∧
    (parse_tac_to_dag "a = b").hasNode "b" = false ∧
    (parse_tac_to_dag "a = b\ne = a + b").edges =
      [("a", "+_0"), ("b", "+_0"), ("+_0", "e")] := by
  decide

/-- C5, amended: a zero-operator instruction `target = operand` ignores the
operand entirely: it adds (or relabels) a node named `target` labelled
`target`, maps `target` to itself in `expr_map`, creates no node or edge for
the operand, and leaves everything else unchanged; later uses of `target`
therefore resolve to the node named `target`, not to the operand's node. -/
theorem c5_theorem (s : BuildState) (line : List Char) (target tok : String)
    (rest : List Char)
    (hin : line.contains '=' = true)
    (hm : pyMatch line = some (target, rest))
    (htok : pySplitWs rest = [tok]) :
    processLine s line =
      { s with G := s.G.add_node target target,
               expr_map := dictSet s.expr_map target target } :=
  processLine_single_token hin hm htok

/-- C5, witness: the amended theorem applied to the line `a = b`. -/
theorem c5_witness :
    ("a = b".data.contains '=' = true ∧
      pyMatch "a = b".data = some ("a", " b".data) ∧
      pySplitWs " b".data = ["b"]) ∧
    processLine BuildState.init "a = b".data =
      { BuildState.init with G := BuildState.init.G.add_node "a" "a",
                             expr_map := dictSet BuildState.init.expr_map "a" "a" } :=
  ⟨⟨by decide, by decide, by decide⟩,
    c5_theorem BuildState.init "a = b".data "a" "b" " b".data
      (by decide) (by decide) (by decide)⟩

/-- C6: the heuristic sequence equals the topological order stably re-sorted
by ascending successor count: it is a permutation of the topological order,
pairwise sorted by the count, and any two nodes with equal counts keep their
relative topological order. -/
theorem c6_theorem (G : PyDiGraph) (topo : List String)
    (h : topological_sort G = .ok topo) :
    ∃ hs : List String, get_heuristic_sequence G = .ok hs ∧
      List.Perm hs topo ∧
      hs.Pairwise (fun a b => successorCount G a ≤ successorCount G b) ∧
      ∀ u v : String, successorCount G u = successorCount G v →
        [u, v].Sublist topo → [u, v].Sublist hs :=
  heuristic_stable_sort h

/-- C6, witness: the theorem applied to the graph of `a = b + c`. -/
theorem c6_witness :
    topological_sort (parse_tac_to_dag "a = b + c") = .ok ["b", "c", "+_0", "a"] ∧
    ∃ hs : List String,
      get_heuristic_sequence (parse_tac_to_dag "a = b + c") = .ok hs ∧
      List.Perm hs ["b", "c", "+_0", "a"] ∧
      hs.Pairwise (fun a b => successorCount (parse_tac_to_dag "a = b + c") a ≤
        successorCount (parse_tac_to_dag "a = b + c") b) ∧
      ∀ u v : String,
        successorCount (parse_tac_to_dag "a = b + c") u =
          successorCount (parse_tac_to_dag "a = b + c") v →
        [u, v].Sublist ["b", "c", "+_0", "a"] → [u, v].Sublist hs :=
  ⟨by decide, c6_theorem (parse_tac_to_dag "a = b + c") ["b", "c", "+_0", "a"] (by decide)⟩

/-- C7, counterexample: the malformed line `x y z =` (it contains `=` but
matches neither statement shape) produces NO diagnostic — it fails the
assignment regex and is skipped silently — although the following valid line
is still processed. -/
theorem c7_counterexample :
    (parseState "x y z =\na = b + c").warnings = [] ∧
    ("b", "+_0") ∈ (parse_tac_to_dag "x y z =\na = b + c").edges := by
  decide

/-- C7, amended: a line containing `=` that fails the assignment regex is
skipped silently with no diagnostic; a line matching the regex whose
right-hand side has a token count other than 1 or 3 produces a diagnostic
carrying only the raw line text (no line number); in both cases the rest of
the state is untouched and parsing continues with the remaining lines. -/
theorem c7_theorem (s : BuildState) (line : List Char)
    (hin : line.contains '=' = true) :
    (pyMatch line = none → processLine s line = s) ∧
    (∀ (target : String) (rest : List Char), pyMatch line = some (target, rest) →
      (pySplitWs rest).length ≠ 1 → (pySplitWs rest).length ≠ 3 →
      processLine s line = { s with warnings := s.warnings ++ [String.mk line] }) := by
  constructor
  · intro hm
    exact processLine_no_match hm
  · intro target rest hm h1 h3
    exact processLine_bad_tokens hin hm h1 h3

/-- C7, witness: the amended theorem applied to the silently skipped line
`x y z =` and to the diagnosed two-token line `a = b c`. -/
theorem c7_witness :
    ("x y z =".data.contains '=' = true ∧ pyMatch "x y z =".data = none ∧
      processLine BuildState.init "x y z =".data = BuildState.init) ∧
    ("a = b c".data.contains '=' = true ∧
      pyMatch "a = b c".data = some ("a", " b c".data) ∧
      (pySplitWs " b c".data).length ≠ 1 ∧ (pySplitWs " b c".data).length ≠ 3 ∧
      processLine BuildState.init "a = b c".data =
        { BuildState.init with
          warnings := BuildState.init.warnings ++ [String.mk "a = b c".data] }) :=
  ⟨⟨by decide, by decide,
      (c7_theorem BuildState.init "x y z =".data (by decide)).1 (by decide)⟩,
    ⟨by decide, by decide, by decide, by decide,
      (c7_theorem BuildState.init "a = b c".data (by decide)).2 "a" " b c".data
        (by decide) (by decide) (by decide)⟩⟩

/-- C8: an empty or whitespace-only input yields a graph with zero nodes, no
warnings, and both schedulers return the empty sequence (as `Except.ok`, never
an exception). -/
theorem c8_theorem (tac : String) (h : ∀ c ∈ tac.data, pyIsSpace c = true) :
    (parse_tac_to_dag tac).nodes = [] ∧
    (parseState tac).warnings = [] ∧
    get_optimal_sequence (parse_tac_to_dag tac) = .ok [] ∧
    get_heuristic_sequence (parse_tac_to_dag tac) = .ok [] := by
  have hps := parseState_whitespace h
  have hG : parse_tac_to_dag tac = PyDiGraph.empty := by
    unfold parse_tac_to_dag
    rw [hps]
    rfl
  refine ⟨?_, ?_, ?_, ?_⟩
  · rw [hG]; rfl
  · rw [hps]; rfl
  · rw [show get_optimal_sequence (parse_tac_to_dag tac) =
        topological_sort (parse_tac_to_dag tac) from rfl, hG]
    exact topological_sort_empty
  · rw [hG]
    exact get_heuristic_empty

/-- C8, witness: the theorem applied to the whitespace-only input. -/
theorem c8_witness :
    (∀ c ∈ "  \n\t ".data, pyIsSpace c = true) ∧
    ((parse_tac_to_dag "  \n\t ").nodes = [] ∧
      (parseState "  \n\t ").warnings = [] ∧
      get_optimal_sequence (parse_tac_to_dag "  \n\t ") = .ok [] ∧
      get_heuristic_sequence (parse_tac_to_dag "  \n\t ") = .ok []) :=
  ⟨by decide, c8_theorem "  \n\t " (by decide)⟩

/-- C9: on a well-formed graph containing a directed cycle, both
`computeOptimal` and `computeHeuristic` fail with the cycle error rather than
looping or returning a sequence. -/
theorem c9_theorem (G : PyDiGraph) (hWF : WFGraph G) (u : String)
    (hcyc : Relation.TransGen (fun a b => (a, b) ∈ G.edges) u u) :
    get_optimal_sequence G =
      .error "Graph contains a cycle or graph changed during iteration" ∧
    get_heuristic_sequence G =
      .error "Graph contains a cycle or graph changed during iteration" := by
  have ht := topological_sort_cycle_error hWF hcyc
  exact ⟨ht, get_heuristic_of_error ht⟩

/-- C9, witness: the theorem applied to the cyclic graph of `a = a + b`. -/
theorem c9_witness :
    WFGraph (parse_tac_to_dag "a = a + b") ∧
    (get_optimal_sequence (parse_tac_to_dag "a = a + b") =
        .error "Graph contains a cycle or graph changed during iteration" ∧
      get_heuristic_sequence (parse_tac_to_dag "a = a + b") =
        .error "Graph contains a cycle or graph changed during iteration") := by
  have h1 : ("a", "+_0") ∈ (parse_tac_to_dag "a = a + b").edges := by decide
  have h2 : ("+_0", "a") ∈ (parse_tac_to_dag "a = a + b").edges := by decide
  exact ⟨by decide,
    c9_theorem (parse_tac_to_dag "a = a + b") (by decide) "a"
      (Relation.TransGen.head h1 (Relation.TransGen.single h2))⟩

/-- C10: the operator token of a three-token right-hand side is not validated
against `+ - * /`: any middle token is accepted — no diagnostic is emitted,
the operator-node counter advances, a node named `op_count` exists, edges run
from the two resolved operands into it and from it to the target, and (when
the target does not collide with the operator-node name) the node is labelled
with the raw middle token. -/
theorem c10_theorem (s : BuildState) (line : List Char) (target : String)
    (rest : List Char) (op1 oper op2 : String)
    (hin : line.contains '=' = true)
    (hm : pyMatch line = some (target, rest))
    (htok : pySplitWs rest = [op1, oper, op2]) :
    (processLine s line).warnings = s.warnings ∧
    (processLine s line).count = s.count + 1 ∧
    (processLine s line).G.hasNode (oper ++ "_" ++ toString s.count) = true ∧
    (dictGet s.expr_map op1 op1, oper ++ "_" ++ toString s.count)
        ∈ (processLine s line).G.edges ∧
    (dictGet s.expr_map op2 op2, oper ++ "_" ++ toString s.count)
        ∈ (processLine s line).G.edges ∧
    (oper ++ "_" ++ toString s.count, target) ∈ (processLine s line).G.edges ∧
    (target ≠ oper ++ "_" ++ toString s.count →
      (processLine s line).G.nodeLabel (oper ++ "_" ++ toString s.count) = some oper) :=
  processLine_binary hin hm htok

/-- C10, witness: the theorem applied to `a = b = c`, whose middle token is
`=`: the line is parsed as a binary instruction with operator node `=_0`
labelled `=`, fed by `b` and `c`, feeding `a`, with no diagnostic. -/
theorem c10_witness :
    ("a = b = c".data.contains '=' = true ∧
      pyMatch "a = b = c".data = some ("a", " b = c".data) ∧
      pySplitWs " b = c".data = ["b", "=", "c"]) ∧
    ((processLine BuildState.init "a = b = c".data).warnings = BuildState.init.warnings ∧
      (processLine BuildState.init "a = b = c".data).count = BuildState.init.count + 1 ∧
      (processLine BuildState.init "a = b = c".data).G.hasNode "=_0" = true ∧
      ("b", "=_0") ∈ (processLine BuildState.init "a = b = c".data).G.edges ∧
      ("c", "=_0") ∈ (processLine BuildState.init "a = b = c".data).G.edges ∧
      ("=_0", "a") ∈ (processLine BuildState.init "a = b = c".data).G.edges ∧
      ("a" ≠ "=_0" →
        (processLine BuildState.init "a = b = c".data).G.nodeLabel "=_0" = some "=")) :=
  ⟨⟨by decide, by decide, by decide⟩,
    c10_theorem BuildState.init "a = b = c".data "a" " b = c".data "b" "=" "c"
      (by decide) (by decide) (by decide)⟩

end DagCD
